import Mathlib

/-!
Verification development for the audio-translation repository.

The client (frontend/src/App.tsx) is embedded directly.  The streaming
relay backend (session controller, ASR reconciliation, chunker,
redundancy filter, translation relay) is not part of the shipped
sources; those components are modelled from the specification, and each
such definition is marked accordingly in its doc comment.

Floating-point audio samples are modelled as rationals; JavaScript
integer-store semantics (truncation toward zero followed by a 16-bit
two-complement wrap) are made explicit.
-/

namespace AudioTranslation

/-! ## Client audio encoding (App.tsx lines 21-38) -/

/-- Wrap of an integer into the signed 16-bit range, as performed when a
JavaScript number is stored into an element of an `Int16Array`. -/
def wrap16 (n : Int) : Int := (n + 32768) % 65536 - 32768

/-- Truncation toward zero, the integer conversion JavaScript applies
before storing a number into a typed integer array. -/
def truncTowardZero (q : ℚ) : Int := if q < 0 then Int.ceil q else Int.floor q

/-- Clamp a sample to the interval from -1 to 1
(App.tsx line 24: Math.max(-1, Math.min(1, input[i]))). -/
def clampUnit (q : ℚ) : ℚ := max (-1) (min 1 q)

/-- One sample of floatTo16BitPCM (App.tsx lines 24-25): clamp, then
scale negatives by 0x8000 and non-negatives by 0x7fff, then store into
an Int16Array slot (truncate toward zero and wrap to 16 bits). -/
def sampleToInt16 (q : ℚ) : Int :=
  let s := clampUnit q
  wrap16 (truncTowardZero (if s < 0 then s * 32768 else s * 32767))

/-- floatTo16BitPCM (App.tsx lines 21-28), samples modelled as rationals. -/
def floatTo16BitPCM (input : List ℚ) : List Int := input.map sampleToInt16

/-- The ideal (un-wrapped) value of one converted sample: clamp, scale,
truncate toward zero, with no 16-bit wrap.  Agreement with
`sampleToInt16` shows that the store never overflows. -/
def sampleIdeal (q : ℚ) : Int :=
  let s := clampUnit q
  truncTowardZero (if s < 0 then s * 32768 else s * 32767)

theorem clampUnit_lower (q : ℚ) : -1 ≤ clampUnit q := le_max_left _ _

theorem clampUnit_upper (q : ℚ) : clampUnit q ≤ 1 := by
  unfold clampUnit
  exact max_le (by norm_num) (min_le_left _ _)

theorem sampleIdeal_lower (q : ℚ) : -32768 ≤ sampleIdeal q := by
  unfold sampleIdeal truncTowardZero
  have h1 := clampUnit_lower q
  have h2 := clampUnit_upper q
  set s := clampUnit q with hs
  by_cases hneg : s < 0
  · have hvneg : s * 32768 < 0 := by nlinarith
    have hv : (-32768 : ℚ) ≤ s * 32768 := by nlinarith
    simp only [if_pos hneg, if_pos hvneg]
    have hm := Int.ceil_le_ceil hv
    have hc : Int.ceil ((-32768 : ℚ)) = (-32768 : Int) := by
      rw [show ((-32768 : ℚ)) = (((-32768 : Int) : ℚ)) by norm_num]
      exact Int.ceil_intCast _
    omega
  · have hnn : 0 ≤ s := le_of_not_lt hneg
    have hv : (0 : ℚ) ≤ s * 32767 := by nlinarith
    simp only [if_neg hneg, if_neg (not_lt.mpr hv)]
    have := Int.le_floor.mpr (show (((0 : Int)) : ℚ) ≤ s * 32767 by exact_mod_cast hv)
    omega

theorem sampleIdeal_upper (q : ℚ) : sampleIdeal q ≤ 32767 := by
  unfold sampleIdeal truncTowardZero
  have h1 := clampUnit_lower q
  have h2 := clampUnit_upper q
  set s := clampUnit q with hs
  by_cases hneg : s < 0
  · have hvneg : s * 32768 < 0 := by nlinarith
    simp only [if_pos hneg, if_pos hvneg]
    have := Int.ceil_le.mpr (show s * 32768 ≤ (((0 : Int)) : ℚ) by exact_mod_cast le_of_lt hvneg)
    omega
  · have hnn : 0 ≤ s := le_of_not_lt hneg
    have hv0 : (0 : ℚ) ≤ s * 32767 := by nlinarith
    have hv : s * 32767 ≤ (32767 : ℚ) := by nlinarith
    simp only [if_neg hneg, if_neg (not_lt.mpr hv0)]
    have hm := Int.floor_le_floor hv
    have hf : Int.floor ((32767 : ℚ)) = (32767 : Int) := by
      rw [show ((32767 : ℚ)) = (((32767 : Int) : ℚ)) by norm_num]
      exact Int.floor_intCast _
    omega

theorem wrap16_eq_self (n : Int) (h1 : -32768 ≤ n) (h2 : n ≤ 32767) : wrap16 n = n := by
  unfold wrap16
  omega

theorem sampleToInt16_eq_ideal (q : ℚ) : sampleToInt16 q = sampleIdeal q := by
  have h1 := sampleIdeal_lower q
  have h2 := sampleIdeal_upper q
  unfold sampleToInt16
  unfold sampleIdeal at h1 h2 ⊢
  exact wrap16_eq_self _ h1 h2

/-- C8: floatTo16BitPCM returns an array of the same length, equal to
the clamp-scale-truncate ideal (so the 16-bit store never wraps), and
every element lies in the signed 16-bit range. -/
theorem floatTo16BitPCM_safe (input : List ℚ) :
    (floatTo16BitPCM input).length = input.length
    ∧ floatTo16BitPCM input = input.map sampleIdeal
    ∧ ∀ y ∈ floatTo16BitPCM input, -32768 ≤ y ∧ y ≤ 32767 := by
  refine ⟨List.length_map _ _, ?_, ?_⟩
  · unfold floatTo16BitPCM
    exact List.map_congr_left fun q _ => sampleToInt16_eq_ideal q
  · intro y hy
    unfold floatTo16BitPCM at hy
    rcases List.mem_map.mp hy with ⟨q, _, rfl⟩
    rw [sampleToInt16_eq_ideal]
    exact ⟨sampleIdeal_lower q, sampleIdeal_upper q⟩

/-! ## Client base64 encoding (App.tsx lines 30-38) -/

/-- Little-endian byte view of an Int16Array buffer: each element is
reduced to its unsigned 16-bit representative and split into low byte
then high byte (new Uint8Array(input.buffer), App.tsx line 31). -/
def int16LEBytes (xs : List Int) : List Nat :=
  xs.flatMap fun v =>
    let u := (v % 65536).toNat
    [u % 256, u / 256]

/-- The binary string built chunk by chunk in encodeBase64
(App.tsx lines 32-36): repeatedly take a 0x8000-byte slice and append. -/
def chunkJoin (l : List Nat) : List Nat :=
  if h : l = [] then []
  else l.take 32768 ++ chunkJoin (l.drop 32768)
termination_by l.length
decreasing_by
  simp only [List.length_drop]
  have hl : 0 < l.length := List.length_pos.mpr h
  omega

/-- The base64 alphabet used by btoa. -/
def base64Alphabet : List Char :=
  "ABCDEFGHIJKLMNOPQRSTUVWXYZabcdefghijklmnopqrstuvwxyz0123456789+/".toList

/-- Character of the base64 alphabet at a 6-bit index. -/
def b64c (n : Nat) : Char := base64Alphabet.getD n 'A'

/-- Model of btoa on a byte sequence: standard base64 with padding. -/
def btoaBytes : List Nat → List Char
  | [] => []
  | [a] => [b64c (a / 4), b64c (a % 4 * 16), '=', '=']
  | [a, b] => [b64c (a / 4), b64c (a % 4 * 16 + b / 16), b64c (b % 16 * 4), '=']
  | a :: b :: c :: rest =>
      b64c (a / 4) :: b64c (a % 4 * 16 + b / 16) :: b64c (b % 16 * 4 + c / 64)
        :: b64c (c % 64) :: btoaBytes rest

/-- encodeBase64 (App.tsx lines 30-38): btoa applied to the binary
string assembled from 0x8000-byte slices of the buffer. -/
def encodeBase64 (input : List Int) : List Char :=
  btoaBytes (chunkJoin (int16LEBytes input))

/-- Spec-side naive encoding: btoa applied to the whole byte buffer at
once, the refinement target for `encodeBase64`. -/
def base64Whole (input : List Int) : List Char :=
  btoaBytes (int16LEBytes input)

theorem chunkJoin_bounded : ∀ (n : Nat) (l : List Nat), l.length ≤ n → chunkJoin l = l := by
  intro n
  induction n with
  | zero =>
    intro l h
    have : l = [] := List.length_eq_zero.mp (Nat.le_zero.mp h)
    subst this
    rw [chunkJoin]
    simp
  | succ n ih =>
    intro l h
    rw [chunkJoin]
    by_cases hl : l = []
    · simp [hl]
    · simp only [hl, dite_false]
      have hd : (l.drop 32768).length ≤ n := by
        rw [List.length_drop]
        have : 0 < l.length := List.length_pos.mpr hl
        omega
      rw [ih _ hd, List.take_append_drop]

theorem chunkJoin_id (l : List Nat) : chunkJoin l = l :=
  chunkJoin_bounded l.length l le_rfl

/-- C9: the chunked encoding equals the naive whole-buffer encoding for
every input, including the empty array and lengths not divisible by the
0x8000 chunk size. -/
theorem encodeBase64_eq_whole (input : List Int) :
    encodeBase64 input = base64Whole input := by
  unfold encodeBase64 base64Whole
  rw [chunkJoin_id]

/-! ## Client React state and the streaming message handler
(App.tsx lines 40-52 and 136-151) -/

/-- The loading indicator values of the client ("process", "recording",
or null). -/
inductive LoadingState where
  | process
  | recording
deriving DecidableEq

/-- The client React state relevant to the verified behaviour, plus an
instrumentation flag recording whether a translate request was issued. -/
structure UIState where
  transcript : String
  translation : String
  errNote : String
  statusNote : String
  loading : Option LoadingState
  translateCalled : Bool
deriving DecidableEq

/-- Events the server sends on the streaming connection. -/
inductive ServerEvent where
  | transcriptDelta (text : String) (isCorrection : Bool)
  | translationDelta (text : String)
  | statusEvent (message : String)
  | errorEvent (message : String)
deriving DecidableEq

/-- The ws.onmessage handler (App.tsx lines 136-151): transcript and
translation deltas are appended to the displayed text, a status event
replaces the status note (empty message becomes the empty string), and
an error event replaces the error note with a fallback for the empty
message. -/
def onWsMessage (v : UIState) : ServerEvent → UIState
  | ServerEvent.transcriptDelta t _ => { v with transcript := v.transcript ++ t }
  | ServerEvent.translationDelta t => { v with translation := v.translation ++ t }
  | ServerEvent.statusEvent m => { v with statusNote := m }
  | ServerEvent.errorEvent m =>
      { v with errNote := if m = "" then "Streaming error." else m }

/-- C1 counterexample: on a transcript_delta marked as a correction the
handler produces exactly the same state as on a non-correction event,
appending the text after the previously displayed transcript instead of
replacing it. -/
theorem transcript_correction_ignored_cex :
    onWsMessage ⟨"hello ", "", "", "", none, false⟩
        (ServerEvent.transcriptDelta "hello world" true)
      = onWsMessage ⟨"hello ", "", "", "", none, false⟩
        (ServerEvent.transcriptDelta "hello world" false)
    ∧ (onWsMessage ⟨"hello ", "", "", "", none, false⟩
        (ServerEvent.transcriptDelta "hello world" true)).transcript
      = "hello hello world"
    ∧ "hello hello world" ≠ "hello world" :=
  ⟨rfl, rfl, by decide⟩

/-- C1 (amended): the client appends the text of every transcript_delta
event to the displayed transcript; the is_correction flag is ignored,
so a correction event never replaces previously displayed text. -/
theorem transcript_delta_always_appends (v : UIState) (t : String) (b : Bool) :
    (onWsMessage v (ServerEvent.transcriptDelta t b)).transcript = v.transcript ++ t
    ∧ onWsMessage v (ServerEvent.transcriptDelta t true)
        = onWsMessage v (ServerEvent.transcriptDelta t false) :=
  ⟨rfl, rfl⟩

/-! ## One-shot upload flow (App.tsx lines 72-122) -/

/-- Outcome of JSON.parse on the transcribe response body: either the
parse throws with a message, or it yields an object whose text field
may be absent. -/
inductive JsonOutcome where
  | fail (msg : String)
  | ok (textField : Option String)
deriving DecidableEq

/-- The transcribe fetch response as consumed by processAudio. -/
structure TranscribeRes where
  ok : Bool
  status : Nat
  body : String
  parsed : JsonOutcome
deriving DecidableEq

/-- The translate fetch response as consumed by processAudio: a raw
body (used for errors and for the no-reader fallback) and, when the
body exposes a stream reader, the decoded chunks in arrival order. -/
structure TranslateRes where
  ok : Bool
  status : Nat
  body : String
  reader : Option (List String)
deriving DecidableEq

/-- processAudio (App.tsx lines 72-122).  Early return when no file is
present; otherwise clear the state, run the transcribe step, then the
translate step, reading the streamed body chunk by chunk when a reader
is available and falling back to the whole body otherwise; any thrown
error lands in the error note, and the finally block clears the loading
and status indicators. -/
def processAudio (hasFile : Bool) (tr : TranscribeRes) (ts : TranslateRes)
    (st : UIState) : UIState :=
  if hasFile = false then { st with errNote := "Record something first." }
  else
    let st0 : UIState :=
      { st with
        errNote := "", transcript := "", translation := "",
        statusNote := "Translating...", loading := some LoadingState.process,
        translateCalled := false }
    let afterTry : UIState :=
      if tr.ok = false then
        { st0 with errNote :=
            if tr.body = "" then "Transcribe " ++ toString tr.status else tr.body }
      else
        match tr.parsed with
        | JsonOutcome.fail m => { st0 with errNote := m }
        | JsonOutcome.ok _ =>
          let st1 : UIState := { st0 with translateCalled := true }
          if ts.ok = false then
            { st1 with errNote :=
                if ts.body = "" then "Translate " ++ toString ts.status else ts.body }
          else
            match ts.reader with
            | none => { st1 with translation := ts.body, statusNote := "" }
            | some chunks =>
                { st1 with
                  translation := chunks.foldl (fun acc c => acc ++ c) "",
                  statusNote := "" }
    { afterTry with loading := none, statusNote := "" }

/-- C6: on a successful translate response the displayed translation is
the concatenation of the decoded stream chunks in arrival order when a
reader is available, and the whole response body otherwise. -/
theorem processAudio_translation_delivery
    (tr : TranscribeRes) (ts : TranslateRes) (st : UIState) (t : Option String)
    (htr : tr.ok = true) (hp : tr.parsed = JsonOutcome.ok t) (hts : ts.ok = true) :
    (processAudio true tr ts st).translation =
      match ts.reader with
      | some chunks => chunks.foldl (fun acc c => acc ++ c) ""
      | none => ts.body := by
  unfold processAudio
  simp only [htr, hp, hts, Bool.true_eq_false, if_false]
  cases ts.reader <;> rfl

theorem processAudio_translation_delivery_witness :
    (processAudio true ⟨true, 200, "ignored", JsonOutcome.ok (some "hi")⟩
      ⟨true, 200, "", some ["Bon", "jour"]⟩
      ⟨"", "", "", "", none, false⟩).translation = "Bonjour"
    ∧ (processAudio true ⟨true, 200, "ignored", JsonOutcome.ok (some "hi")⟩
      ⟨true, 200, "whole body", none⟩
      ⟨"", "", "", "", none, false⟩).translation = "whole body" := by
  constructor
  · have h := processAudio_translation_delivery
      ⟨true, 200, "ignored", JsonOutcome.ok (some "hi")⟩
      ⟨true, 200, "", some ["Bon", "jour"]⟩
      ⟨"", "", "", "", none, false⟩ (some "hi") rfl rfl rfl
    simpa using h
  · have h := processAudio_translation_delivery
      ⟨true, 200, "ignored", JsonOutcome.ok (some "hi")⟩
      ⟨true, 200, "whole body", none⟩
      ⟨"", "", "", "", none, false⟩ (some "hi") rfl rfl rfl
    simpa using h

/-- C10: when the transcribe response is not ok, processAudio issues no
translate request, the displayed translation stays empty, the error
shown is the transcribe body (or "Transcribe status" when the body is
empty), and the loading and status indicators are cleared. -/
theorem processAudio_transcribe_failure
    (tr : TranscribeRes) (ts : TranslateRes) (st : UIState)
    (h : tr.ok = false) :
    (processAudio true tr ts st).translateCalled = false
    ∧ (processAudio true tr ts st).translation = ""
    ∧ (processAudio true tr ts st).errNote =
        (if tr.body = "" then "Transcribe " ++ toString tr.status else tr.body)
    ∧ (processAudio true tr ts st).loading = none
    ∧ (processAudio true tr ts st).statusNote = "" := by
  unfold processAudio
  simp [h]

theorem processAudio_transcribe_failure_witness :
    (processAudio true ⟨false, 500, "", JsonOutcome.ok none⟩
      ⟨true, 200, "", none⟩ ⟨"", "", "", "", none, false⟩).translateCalled = false
    ∧ (processAudio true ⟨false, 500, "", JsonOutcome.ok none⟩
      ⟨true, 200, "", none⟩ ⟨"", "", "", "", none, false⟩).translation = ""
    ∧ (processAudio true ⟨false, 500, "", JsonOutcome.ok none⟩
      ⟨true, 200, "", none⟩ ⟨"", "", "", "", none, false⟩).errNote = "Transcribe 500"
    ∧ (processAudio true ⟨false, 500, "", JsonOutcome.ok none⟩
      ⟨true, 200, "", none⟩ ⟨"", "", "", "", none, false⟩).loading = none
    ∧ (processAudio true ⟨false, 500, "", JsonOutcome.ok none⟩
      ⟨true, 200, "", none⟩ ⟨"", "", "", "", none, false⟩).statusNote = "" := by
  have h := processAudio_transcribe_failure ⟨false, 500, "", JsonOutcome.ok none⟩
    ⟨true, 200, "", none⟩ ⟨"", "", "", "", none, false⟩ rfl
  simpa using h

/-! ## Streaming client directives (App.tsx lines 124-216) -/

/-- The three directives the client can send on the WebSocket. -/
inductive ClientMsg where
  | start (targetLanguage : String)
  | audio (data : List Char)
  | stop
deriving DecidableEq

/-- Socket lifecycle as observed by the client code. -/
inductive WsPhase where
  | connecting
  | opened
  | closed
deriving DecidableEq

/-- External events driving the recording client: the socket open
callback, an audio-processor callback carrying one frame of samples, a
call to stopRecording (user stop, mic failure, or the ws error
handler), and the socket close callback. -/
inductive ClientEvent where
  | wsOpen
  | audioFrame (samples : List ℚ)
  | stopCall
  | wsClosed

structure ClientState where
  phase : WsPhase
  sent : List ClientMsg

/-- One step of the recording client.  On open, the start directive
with the target language is sent first (App.tsx line 164); an audio
callback sends a base64 PCM16 frame only while the socket is open
(lines 179-183); stopRecording sends stop only if the socket is still
open and then closes it (lines 200-204); the close callback finds the
socket already closed, so its stopRecording call emits nothing. -/
def clientStep (lang : String) (s : ClientState) : ClientEvent → ClientState
  | ClientEvent.wsOpen =>
      match s.phase with
      | WsPhase.connecting =>
          { phase := WsPhase.opened, sent := s.sent ++ [ClientMsg.start lang] }
      | _ => s
  | ClientEvent.audioFrame f =>
      match s.phase with
      | WsPhase.opened =>
          { s with sent := s.sent ++ [ClientMsg.audio (encodeBase64 (floatTo16BitPCM f))] }
      | _ => s
  | ClientEvent.stopCall =>
      match s.phase with
      | WsPhase.opened =>
          { phase := WsPhase.closed, sent := s.sent ++ [ClientMsg.stop] }
      | _ => { s with phase := WsPhase.closed }
  | ClientEvent.wsClosed => { s with phase := WsPhase.closed }

/-- A whole recording run, from a fresh connecting socket. -/
def clientRun (lang : String) (evts : List ClientEvent) : ClientState :=
  evts.foldl (clientStep lang) { phase := WsPhase.connecting, sent := [] }

def isAudioMsg : ClientMsg → Bool
  | ClientMsg.audio _ => true
  | _ => false

/-- The directive discipline of a run: nothing was sent, or the start
directive came first, followed only by audio directives, with stop (if
present) last and sent at most once. -/
def sentShape (lang : String) (m : List ClientMsg) : Prop :=
  m = [] ∨ ∃ audios tl, m = ClientMsg.start lang :: (audios ++ tl)
    ∧ (∀ a ∈ audios, isAudioMsg a = true)
    ∧ (tl = [] ∨ tl = [ClientMsg.stop])

/-- Phase-indexed invariant of the client state machine. -/
def clientInv (lang : String) (s : ClientState) : Prop :=
  match s.phase with
  | WsPhase.connecting => s.sent = []
  | WsPhase.opened => ∃ audios, s.sent = ClientMsg.start lang :: audios
      ∧ ∀ a ∈ audios, isAudioMsg a = true
  | WsPhase.closed => sentShape lang s.sent

theorem clientStep_inv (lang : String) (s : ClientState) (e : ClientEvent)
    (h : clientInv lang s) : clientInv lang (clientStep lang s e) := by
  obtain ⟨ph, m⟩ := s
  cases e with
  | wsOpen =>
    cases ph with
    | connecting =>
      simp only [clientInv] at h
      subst h
      exact ⟨[], rfl, by simp⟩
    | opened => exact h
    | closed => exact h
  | audioFrame f =>
    cases ph with
    | connecting => exact h
    | opened =>
      obtain ⟨audios, hm, hall⟩ := h
      refine ⟨audios ++ [ClientMsg.audio (encodeBase64 (floatTo16BitPCM f))], ?_, ?_⟩
      · have hm2 : m = ClientMsg.start lang :: audios := hm
        simp only [clientStep, hm2]
        rfl
      · intro a ha
        rcases List.mem_append.mp ha with h1 | h1
        · exact hall a h1
        · simp only [List.mem_singleton] at h1
          subst h1
          rfl
    | closed => exact h
  | stopCall =>
    cases ph with
    | connecting =>
      simp only [clientInv] at h ⊢
      subst h
      exact Or.inl rfl
    | opened =>
      obtain ⟨audios, hm, hall⟩ := h
      refine Or.inr ⟨audios, [ClientMsg.stop], ?_, hall, Or.inr rfl⟩
      have hm2 : m = ClientMsg.start lang :: audios := hm
      simp only [clientStep, hm2]
      rfl
    | closed => exact h
  | wsClosed =>
    cases ph with
    | connecting =>
      simp only [clientInv] at h ⊢
      subst h
      exact Or.inl rfl
    | opened =>
      obtain ⟨audios, hm, hall⟩ := h
      exact Or.inr ⟨audios, [], by simpa using hm, hall, Or.inl rfl⟩
    | closed => exact h

theorem clientFold_inv (lang : String) (evts : List ClientEvent) :
    ∀ s : ClientState, clientInv lang s →
      clientInv lang (evts.foldl (clientStep lang) s) := by
  induction evts with
  | nil => intro s h; exact h
  | cons e rest ih =>
    intro s h
    exact ih _ (clientStep_inv lang s e h)

/-- C5: in every run of the recording client, each message sent is one
of the three directives; the start directive (carrying the target
language) precedes every audio directive; audio directives are sent
only while the socket is open; and stop, when sent, is the final
directive, sent at most once. -/
theorem client_directive_discipline (lang : String) (evts : List ClientEvent) :
    sentShape lang (clientRun lang evts).sent := by
  have h := clientFold_inv lang evts { phase := WsPhase.connecting, sent := [] } rfl
  unfold clientRun
  set s := evts.foldl (clientStep lang) { phase := WsPhase.connecting, sent := [] } with hs
  unfold clientInv at h
  cases hph : s.phase with
  | connecting => rw [hph] at h; exact Or.inl h
  | opened =>
    rw [hph] at h
    obtain ⟨audios, hm, hall⟩ := h
    exact Or.inr ⟨audios, [], by simpa using hm, hall, Or.inl rfl⟩
  | closed => rw [hph] at h; exact h

/-! ## ASR reconciliation (spec section 4.2).  The relay backend is not
part of the shipped sources, so these components are modelled from the
specification. -/

/-- Modelled from the spec: a transcript fragment from the ASR engine
(spec section 3), missing backend component — its text and the length
of the running-transcript tail it supersedes (zero for a pure
append). -/
structure Fragment where
  text : List Char
  replaceLen : Nat
deriving DecidableEq

/-- Modelled from the spec: reconciliation state of a session, missing
backend component — the running transcript and the frozen boundary,
the offset before which text has already been chunked and filtered and
is immutable. -/
structure RecState where
  transcript : List Char
  frozen : Nat
deriving DecidableEq

/-- Modelled from the spec (section 4.2), missing backend component:
the reconciler replaces exactly the declared tail span and appends the
fragment text, preserving everything before the replaced span; when the
declared span would overlap frozen text, only the non-frozen portion is
replaced and the conflicting leading part of the fragment is
discarded. -/
def applyFragment (s : RecState) (f : Fragment) : RecState :=
  let unfrozen := s.transcript.length - s.frozen
  let eff := min f.replaceLen unfrozen
  let cut := f.replaceLen - eff
  { transcript := s.transcript.take (s.transcript.length - eff) ++ f.text.drop cut,
    frozen := s.frozen }

/-- Modelled from the spec, missing backend component: the Chunker
consuming the transcript up to offset n advances the frozen boundary,
never backwards and never past the end. -/
def freezeTo (s : RecState) (n : Nat) : RecState :=
  { s with frozen := max s.frozen (min n s.transcript.length) }

/-- A reconciliation-level operation on a session: apply an ASR
fragment, or freeze a consumed span. -/
inductive RecOp where
  | fragment (f : Fragment)
  | freeze (n : Nat)
deriving DecidableEq

def recStep (s : RecState) : RecOp → RecState
  | RecOp.fragment f => applyFragment s f
  | RecOp.freeze n => freezeTo s n

def runOps (s : RecState) (ops : List RecOp) : RecState :=
  ops.foldl recStep s

theorem applyFragment_take (s : RecState) (f : Fragment)
    (h : s.frozen ≤ s.transcript.length) :
    (applyFragment s f).transcript.take s.frozen = s.transcript.take s.frozen := by
  unfold applyFragment
  have heff : min f.replaceLen (s.transcript.length - s.frozen)
      ≤ s.transcript.length - s.frozen := min_le_right _ _
  set eff := min f.replaceLen (s.transcript.length - s.frozen) with he
  have hlen : s.frozen ≤ (s.transcript.take (s.transcript.length - eff)).length := by
    rw [List.length_take]
    omega
  rw [List.take_append_of_le_length hlen, List.take_take,
    min_eq_left (by omega : s.frozen ≤ s.transcript.length - eff)]

theorem recStep_inv (s : RecState) (op : RecOp)
    (h : s.frozen ≤ s.transcript.length) :
    (recStep s op).transcript.take s.frozen = s.transcript.take s.frozen
    ∧ s.frozen ≤ (recStep s op).frozen
    ∧ (recStep s op).frozen ≤ (recStep s op).transcript.length := by
  cases op with
  | fragment f =>
    refine ⟨applyFragment_take s f h, le_rfl, ?_⟩
    show s.frozen ≤ (applyFragment s f).transcript.length
    unfold applyFragment
    have heff : min f.replaceLen (s.transcript.length - s.frozen)
        ≤ s.transcript.length - s.frozen := min_le_right _ _
    simp only [List.length_append, List.length_take, List.length_drop]
    omega
  | freeze n =>
    refine ⟨rfl, le_max_left _ _, ?_⟩
    show max s.frozen (min n s.transcript.length) ≤ s.transcript.length
    omega

theorem runOps_preserves : ∀ (ops : List RecOp) (s : RecState),
    s.frozen ≤ s.transcript.length →
    (runOps s ops).transcript.take s.frozen = s.transcript.take s.frozen
    ∧ s.frozen ≤ (runOps s ops).frozen
    ∧ (runOps s ops).frozen ≤ (runOps s ops).transcript.length := by
  intro ops
  induction ops with
  | nil => intro s h; exact ⟨rfl, le_rfl, h⟩
  | cons op rest ih =>
    intro s h
    obtain ⟨hstep, hmono, hinv⟩ := recStep_inv s op h
    obtain ⟨htake, hmono2, hinv2⟩ := ih (recStep s op) hinv
    have hrun : runOps s (op :: rest) = runOps (recStep s op) rest := rfl
    rw [hrun]
    refine ⟨?_, le_trans hmono hmono2, hinv2⟩
    calc (runOps (recStep s op) rest).transcript.take s.frozen
        = ((runOps (recStep s op) rest).transcript.take (recStep s op).frozen).take
            s.frozen := by
          rw [List.take_take, min_eq_left hmono]
      _ = ((recStep s op).transcript.take (recStep s op).frozen).take s.frozen := by
          rw [htake]
      _ = (recStep s op).transcript.take s.frozen := by
          rw [List.take_take, min_eq_left hmono]
      _ = s.transcript.take s.frozen := hstep

/-- C2: text before the frozen boundary is never altered by any later
sequence of reconciliation steps (fragments or freezes), and a
correction whose declared span overlaps frozen text has only its
non-frozen portion applied, with the conflicting leading part of the
fragment discarded. -/
theorem frozen_text_never_altered (s : RecState) (ops : List RecOp) (f : Fragment)
    (h : s.frozen ≤ s.transcript.length) :
    ((runOps s ops).transcript.take s.frozen = s.transcript.take s.frozen
      ∧ s.frozen ≤ (runOps s ops).frozen)
    ∧ (s.transcript.length - s.frozen ≤ f.replaceLen →
        (applyFragment s f).transcript =
          s.transcript.take s.frozen
            ++ f.text.drop (f.replaceLen - (s.transcript.length - s.frozen))) := by
  obtain ⟨htake, hmono, _⟩ := runOps_preserves ops s h
  refine ⟨⟨htake, hmono⟩, ?_⟩
  intro hover
  simp only [applyFragment]
  have hmin : min f.replaceLen (s.transcript.length - s.frozen)
      = s.transcript.length - s.frozen := min_eq_right hover
  rw [hmin]
  have hfr : s.transcript.length - (s.transcript.length - s.frozen) = s.frozen := by
    omega
  rw [hfr]

theorem frozen_text_never_altered_witness :
    ((runOps ⟨['a', 'b', 'c', 'd'], 2⟩
        [RecOp.fragment ⟨['x', 'y'], 3⟩, RecOp.freeze 4]).transcript.take 2
      = ['a', 'b']
      ∧ 2 ≤ (runOps ⟨['a', 'b', 'c', 'd'], 2⟩
        [RecOp.fragment ⟨['x', 'y'], 3⟩, RecOp.freeze 4]).frozen)
    ∧ (applyFragment ⟨['a', 'b', 'c', 'd'], 2⟩ ⟨['x', 'y', 'z'], 3⟩).transcript
      = ['a', 'b', 'y', 'z'] := by
  have h := frozen_text_never_altered ⟨['a', 'b', 'c', 'd'], 2⟩
    [RecOp.fragment ⟨['x', 'y'], 3⟩, RecOp.freeze 4] ⟨['x', 'y', 'z'], 3⟩
    (by decide)
  refine ⟨⟨?_, h.1.2⟩, ?_⟩
  · rw [h.1.1]
    decide
  · have h2 := h.2 (by decide)
    simpa using h2

/-! ## Chunker trigger policy (spec section 4.3; configuration values
from the deployment README). -/

/-- Modelled from the spec: chunk-size threshold in characters
(TRANSLATION_CHUNK_CHARS = 40). -/
def chunkCharsCfg : Nat := 40

/-- Modelled from the spec: chunk emission interval in milliseconds
(TRANSLATION_CHUNK_INTERVAL = 0.7 s). -/
def chunkIntervalMsCfg : Nat := 700

/-- Modelled from the spec: minimum alphanumeric character count
(TRANSLATION_MIN_ALNUM = 2). -/
def minAlnumCfg : Nat := 2

/-- Number of alphanumeric characters in a span. -/
def alnumCount (s : String) : Nat := (s.toList.filter Char.isAlphanum).length

/-- Modelled from the spec (section 4.3), missing backend component:
the Chunker trigger — size threshold with minimum alphanumeric count,
or elapsed time since the last emission with a non-empty span meeting
the minimum alphanumeric count, or an explicit flush request. -/
def chunkReady (span : String) (elapsedMs : Nat) (forceFlush : Bool) : Bool :=
  (decide (chunkCharsCfg ≤ span.length) && decide (minAlnumCfg ≤ alnumCount span))
  || (decide (chunkIntervalMsCfg ≤ elapsedMs) && decide (span.length ≠ 0)
        && decide (minAlnumCfg ≤ alnumCount span))
  || forceFlush

/-- C7: with threshold 40 characters and interval 0.7 s, a 35-character
span meeting the minimum alphanumeric count that has waited 1 s since
the last emission triggers a time-based flush although it is under the
size threshold. -/
theorem time_based_flush (span : String)
    (h35 : span.length = 35) (halnum : minAlnumCfg ≤ alnumCount span) :
    chunkReady span 1000 false = true ∧ span.length < chunkCharsCfg := by
  constructor
  · simp [chunkReady, chunkIntervalMsCfg, h35, halnum]
  · rw [h35]
    unfold chunkCharsCfg
    omega

theorem time_based_flush_witness :
    chunkReady (String.mk (List.replicate 35 'a')) 1000 false = true
    ∧ (String.mk (List.replicate 35 'a')).length < chunkCharsCfg :=
  time_based_flush (String.mk (List.replicate 35 'a')) (by decide) (by decide)

/-! ## Redundancy filter (spec section 4.4; configuration values from
the deployment README). -/

/-- Modelled from the spec: the overlap ratio k over n exceeds the
configured threshold TRANSLATION_REDUNDANCY_OVERLAP = 0.85 = 17/20,
written without division as 17 * n < 20 * k. -/
def overlapExceeds (k n : Nat) : Prop := 17 * n < 20 * k

/-- The overlap ratio k over n is below the 0.85 threshold. -/
def overlapBelow (k n : Nat) : Prop := 20 * k < 17 * n

instance (k n : Nat) : Decidable (overlapExceeds k n) :=
  inferInstanceAs (Decidable (17 * n < 20 * k))

instance (k n : Nat) : Decidable (overlapBelow k n) :=
  inferInstanceAs (Decidable (20 * k < 17 * n))

/-- Modelled from the spec: redundancy minimum token count
(TRANSLATION_REDUNDANCY_MIN_TOKENS = 3). -/
def minTokensCfg : Nat := 3

/-- Normalized token comparison (case folding). -/
def normalizeTok (t : String) : String := String.mk (t.toList.map Char.toLower)

/-- Whether the candidate's k leading tokens equal, after
normalization, the accepted chunk's k trailing tokens. -/
def matchAt (accepted cand : List String) (k : Nat) : Bool :=
  (cand.take k).map normalizeTok
    == (accepted.drop (accepted.length - k)).map normalizeTok

/-- The largest k such that the candidate's k leading tokens match the
accepted chunk's k trailing tokens. -/
def overlapLen (accepted cand : List String) : Nat :=
  (List.range (min accepted.length cand.length + 1)).foldl
    (fun acc k => if matchAt accepted cand k then k else acc) 0

/-- Alphanumeric character count of a token list. -/
def alnumCountToks (ts : List String) : Nat := (ts.map alnumCount).sum

/-- Modelled from the spec (section 4.4), missing backend component:
compare the candidate's leading tokens against the trailing tokens of
the last accepted chunk; when the overlap ratio exceeds the configured
threshold and the overlapping token count exceeds the configured
minimum, trim the overlapping leading tokens from the candidate; if
trimming would leave the candidate below the minimum alphanumeric
count, drop it entirely. -/
def redundancyFilter (accepted cand : List String) : Option (List String) :=
  let k := overlapLen accepted cand
  if overlapExceeds k cand.length ∧ minTokensCfg < k then
    let trimmed := cand.drop k
    if alnumCountToks trimmed < minAlnumCfg then none
    else some trimmed
  else some cand

/-- C4 counterexample: a three-token candidate whose tokens all repeat
the accepted chunk's trailing tokens is forwarded unchanged, because
its overlap count does not exceed the minimum token count; the
forwarded chunk's overlap ratio is 1, not below the 0.85 threshold. -/
theorem redundancy_overlap_cex :
    redundancyFilter ["x", "a", "b", "c"] ["a", "b", "c"] = some ["a", "b", "c"]
    ∧ ¬ overlapBelow (overlapLen ["x", "a", "b", "c"] ["a", "b", "c"])
        (["a", "b", "c"] : List String).length := by
  constructor
  · decide
  · decide

/-- C4 (amended): a candidate is forwarded unchanged only when its
overlap with the last accepted chunk does not both exceed the
overlap-ratio threshold and the minimum token count; when both are
exceeded, the maximal overlapping leading-token run is trimmed and the
forwarded remainder meets the minimum alphanumeric count; if trimming
would leave fewer alphanumeric characters than the minimum, the
candidate is dropped entirely rather than forwarded. -/
theorem redundancyFilter_spec (accepted cand : List String) :
    (∀ out, redundancyFilter accepted cand = some out →
      (out = cand
        ∧ ¬ (overlapExceeds (overlapLen accepted cand) cand.length
              ∧ minTokensCfg < overlapLen accepted cand))
      ∨ (out = cand.drop (overlapLen accepted cand)
        ∧ overlapExceeds (overlapLen accepted cand) cand.length
        ∧ minTokensCfg < overlapLen accepted cand
        ∧ minAlnumCfg ≤ alnumCountToks out))
    ∧ (overlapExceeds (overlapLen accepted cand) cand.length
        ∧ minTokensCfg < overlapLen accepted cand
        ∧ alnumCountToks (cand.drop (overlapLen accepted cand)) < minAlnumCfg
      → redundancyFilter accepted cand = none) := by
  constructor
  · intro out h
    simp only [redundancyFilter] at h
    by_cases hc : overlapExceeds (overlapLen accepted cand) cand.length
        ∧ minTokensCfg < overlapLen accepted cand
    · rw [if_pos hc] at h
      by_cases ha : alnumCountToks (cand.drop (overlapLen accepted cand)) < minAlnumCfg
      · rw [if_pos ha] at h
        exact absurd h (by simp)
      · rw [if_neg ha] at h
        injection h with h
        subst h
        exact Or.inr ⟨rfl, hc.1, hc.2, le_of_not_lt ha⟩
    · rw [if_neg hc] at h
      injection h with h
      subst h
      exact Or.inl ⟨rfl, hc⟩
  · rintro ⟨h1, h2, h3⟩
    simp only [redundancyFilter]
    rw [if_pos ⟨h1, h2⟩, if_pos h3]

theorem redundancyFilter_spec_witness :
    ((["hi"] = (["aa", "bb", "cc", "dd", "ee", "ff", "hi"] : List String)
        ∧ ¬ (overlapExceeds
              (overlapLen ["aa", "bb", "cc", "dd", "ee", "ff"]
                ["aa", "bb", "cc", "dd", "ee", "ff", "hi"])
              (["aa", "bb", "cc", "dd", "ee", "ff", "hi"] : List String).length
            ∧ minTokensCfg < overlapLen ["aa", "bb", "cc", "dd", "ee", "ff"]
                ["aa", "bb", "cc", "dd", "ee", "ff", "hi"]))
      ∨ (["hi"] = (["aa", "bb", "cc", "dd", "ee", "ff", "hi"] : List String).drop
            (overlapLen ["aa", "bb", "cc", "dd", "ee", "ff"]
              ["aa", "bb", "cc", "dd", "ee", "ff", "hi"])
        ∧ overlapExceeds
            (overlapLen ["aa", "bb", "cc", "dd", "ee", "ff"]
              ["aa", "bb", "cc", "dd", "ee", "ff", "hi"])
            (["aa", "bb", "cc", "dd", "ee", "ff", "hi"] : List String).length
        ∧ minTokensCfg < overlapLen ["aa", "bb", "cc", "dd", "ee", "ff"]
            ["aa", "bb", "cc", "dd", "ee", "ff", "hi"]
        ∧ minAlnumCfg ≤ alnumCountToks ["hi"]))
    ∧ redundancyFilter ["aa", "bb", "cc", "dd"] ["aa", "bb", "cc", "dd"] = none := by
  constructor
  · exact (redundancyFilter_spec ["aa", "bb", "cc", "dd", "ee", "ff"]
      ["aa", "bb", "cc", "dd", "ee", "ff", "hi"]).1 ["hi"] (by decide)
  · exact (redundancyFilter_spec ["aa", "bb", "cc", "dd"]
      ["aa", "bb", "cc", "dd"]).2 (by decide)

/-! ## Translation relay output queue (spec sections 3 and 4.5) -/

/-- Modelled from the spec: upstream translation events of a session —
a translated fragment attributed to its originating chunk, or the
completion of a chunk's upstream response; the arrival interleaving is
arbitrary. -/
inductive RelayEvent where
  | frag (chunk : Nat) (text : String)
  | chunkDone (chunk : Nat)
deriving DecidableEq

/-- Modelled from the spec, missing backend component: the per-session
output queue — the lowest chunk index not yet fully emitted, buffered
future fragments in arrival order, the chunks whose upstream response
has completed, and the fragments already released to the client. -/
structure RelayState where
  cur : Nat
  buf : List (Nat × String)
  doneChunks : List Nat
  out : List (Nat × String)
deriving DecidableEq

/-- Advance the current chunk while its upstream response is complete,
releasing the buffered fragments of each newly current chunk in
arrival order; the fuel bounds the number of advances. -/
def advanceQueue : Nat → RelayState → RelayState
  | 0, s => s
  | fuel + 1, s =>
    if s.cur ∈ s.doneChunks then
      advanceQueue fuel
        { cur := s.cur + 1,
          buf := s.buf.filter (fun p => p.1 ≠ s.cur + 1),
          doneChunks := s.doneChunks,
          out := s.out ++ s.buf.filter (fun p => p.1 = s.cur + 1) }
    else s

/-- Modelled from the spec (sections 3 and 4.5), missing backend
component: fragments of the current chunk are released to the client
immediately, fragments of later chunks are buffered, and a completion
event lets the queue advance, flushing buffered fragments strictly in
chunk order. -/
def relayStep (s : RelayState) : RelayEvent → RelayState
  | RelayEvent.frag i t =>
      if i = s.cur then { s with out := s.out ++ [(i, t)] }
      else { s with buf := s.buf ++ [(i, t)] }
  | RelayEvent.chunkDone i =>
      advanceQueue (i :: s.doneChunks).length
        { s with doneChunks := i :: s.doneChunks }

/-- A whole session, from chunk 0 with empty queues. -/
def relayRun (evts : List RelayEvent) : RelayState :=
  evts.foldl relayStep { cur := 0, buf := [], doneChunks := [], out := [] }

/-- Well-formed upstream behaviour: no fragment of a chunk arrives
after that chunk's completion event. -/
def wfEvents : List Nat → List RelayEvent → Bool
  | _, [] => true
  | d, RelayEvent.frag i _ :: rest => !(d.elem i) && wfEvents d rest
  | d, RelayEvent.chunkDone i :: rest => wfEvents (i :: d) rest

/-- Released fragments are ordered by originating chunk. -/
def chunkLE (p q : Nat × String) : Prop := p.1 ≤ q.1

/-- Queue invariant: released fragments are in chunk order and only up
to the current chunk, buffered fragments belong to strictly later
chunks, and every chunk before the current one has completed. -/
def RelayInv (s : RelayState) : Prop :=
  s.out.Pairwise chunkLE
  ∧ (∀ p ∈ s.out, p.1 ≤ s.cur)
  ∧ (∀ p ∈ s.buf, s.cur < p.1)
  ∧ (∀ j, j < s.cur → j ∈ s.doneChunks)

theorem pairwise_const_le (c : Nat) : ∀ (l : List (Nat × String)),
    (∀ p ∈ l, p.1 = c) → l.Pairwise chunkLE := by
  intro l
  induction l with
  | nil => intro _; exact List.Pairwise.nil
  | cons a tl ih =>
    intro h
    refine List.Pairwise.cons ?_ (ih fun p hp => h p (List.mem_cons_of_mem _ hp))
    intro b hb
    have ha := h a (List.mem_cons_self _ _)
    have hbv := h b (List.mem_cons_of_mem _ hb)
    unfold chunkLE
    omega

theorem advanceQueue_inv : ∀ (fuel : Nat) (s : RelayState),
    RelayInv s → RelayInv (advanceQueue fuel s) := by
  intro fuel
  induction fuel with
  | zero => intro s h; exact h
  | succ n ih =>
    intro s h
    unfold advanceQueue
    by_cases hc : s.cur ∈ s.doneChunks
    · rw [if_pos hc]
      apply ih
      obtain ⟨hp, hout, hbuf, hdone⟩ := h
      refine ⟨?_, ?_, ?_, ?_⟩
      · show (s.out ++ s.buf.filter (fun p => p.1 = s.cur + 1)).Pairwise chunkLE
        rw [List.pairwise_append]
        refine ⟨hp, ?_, ?_⟩
        · apply pairwise_const_le (s.cur + 1)
          intro p hp2
          exact of_decide_eq_true (List.mem_filter.mp hp2).2
        · intro a ha b hb
          have h1 := hout a ha
          have h2 : b.1 = s.cur + 1 := of_decide_eq_true (List.mem_filter.mp hb).2
          unfold chunkLE
          omega
      · intro p hp2
        show p.1 ≤ s.cur + 1
        rcases List.mem_append.mp hp2 with h1 | h1
        · have := hout p h1
          omega
        · have : p.1 = s.cur + 1 := of_decide_eq_true (List.mem_filter.mp h1).2
          omega
      · intro p hp2
        show s.cur + 1 < p.1
        have hmem := (List.mem_filter.mp hp2).1
        have hne : p.1 ≠ s.cur + 1 := of_decide_eq_true (List.mem_filter.mp hp2).2
        have := hbuf p hmem
        omega
      · intro j hj
        have hj2 : j < s.cur + 1 := hj
        show j ∈ s.doneChunks
        by_cases hje : j = s.cur
        · subst hje; exact hc
        · exact hdone j (by omega)
    · rw [if_neg hc]
      exact h

theorem advanceQueue_done : ∀ (fuel : Nat) (s : RelayState),
    (advanceQueue fuel s).doneChunks = s.doneChunks := by
  intro fuel
  induction fuel with
  | zero => intro s; rfl
  | succ n ih =>
    intro s
    unfold advanceQueue
    by_cases hc : s.cur ∈ s.doneChunks
    · rw [if_pos hc, ih]
    · rw [if_neg hc]

theorem advanceQueue_out_mem : ∀ (fuel : Nat) (s : RelayState) (p : Nat × String),
    p ∈ s.out → p ∈ (advanceQueue fuel s).out := by
  intro fuel
  induction fuel with
  | zero => intro s p h; exact h
  | succ n ih =>
    intro s p h
    unfold advanceQueue
    by_cases hc : s.cur ∈ s.doneChunks
    · rw [if_pos hc]
      exact ih _ p (List.mem_append_left _ h)
    · rw [if_neg hc]
      exact h

theorem advanceQueue_buf_mem : ∀ (fuel : Nat) (s : RelayState) (p : Nat × String),
    p ∈ s.buf → p ∈ (advanceQueue fuel s).out ∨ p ∈ (advanceQueue fuel s).buf := by
  intro fuel
  induction fuel with
  | zero => intro s p h; exact Or.inr h
  | succ n ih =>
    intro s p h
    unfold advanceQueue
    by_cases hc : s.cur ∈ s.doneChunks
    · rw [if_pos hc]
      by_cases hpv : p.1 = s.cur + 1
      · left
        apply advanceQueue_out_mem
        exact List.mem_append_right _ (List.mem_filter.mpr ⟨h, decide_eq_true hpv⟩)
      · exact ih _ p (List.mem_filter.mpr ⟨h, decide_eq_true hpv⟩)
    · rw [if_neg hc]
      exact Or.inr h

theorem relayStep_out_mem (s : RelayState) (e : RelayEvent) (p : Nat × String)
    (h : p ∈ s.out) : p ∈ (relayStep s e).out := by
  cases e with
  | frag i t =>
    simp only [relayStep]
    by_cases hic : i = s.cur
    · rw [if_pos hic]
      exact List.mem_append_left _ h
    · rw [if_neg hic]
      exact h
  | chunkDone i =>
    exact advanceQueue_out_mem _ _ p h

theorem relayStep_buf_mem (s : RelayState) (e : RelayEvent) (p : Nat × String)
    (h : p ∈ s.buf) : p ∈ (relayStep s e).out ∨ p ∈ (relayStep s e).buf := by
  cases e with
  | frag i t =>
    simp only [relayStep]
    by_cases hic : i = s.cur
    · rw [if_pos hic]
      exact Or.inr h
    · rw [if_neg hic]
      exact Or.inr (List.mem_append_left _ h)
  | chunkDone i =>
    exact advanceQueue_buf_mem _ _ p h

theorem relayFold_out_mem : ∀ (evts : List RelayEvent) (s : RelayState) (p : Nat × String),
    p ∈ s.out → p ∈ (List.foldl relayStep s evts).out := by
  intro evts
  induction evts with
  | nil => intro s p h; exact h
  | cons e rest ih =>
    intro s p h
    exact ih _ p (relayStep_out_mem s e p h)

theorem relayFold_buf_mem : ∀ (evts : List RelayEvent) (s : RelayState) (p : Nat × String),
    p ∈ s.buf →
    p ∈ (List.foldl relayStep s evts).out ∨ p ∈ (List.foldl relayStep s evts).buf := by
  intro evts
  induction evts with
  | nil => intro s p h; exact Or.inr h
  | cons e rest ih =>
    intro s p h
    rcases relayStep_buf_mem s e p h with h1 | h1
    · exact Or.inl (relayFold_out_mem rest _ p h1)
    · exact ih _ p h1

theorem relayFold_master : ∀ (evts : List RelayEvent) (s : RelayState),
    RelayInv s → wfEvents s.doneChunks evts = true →
    RelayInv (List.foldl relayStep s evts)
    ∧ ∀ i t, RelayEvent.frag i t ∈ evts →
        (i, t) ∈ (List.foldl relayStep s evts).out
        ∨ (i, t) ∈ (List.foldl relayStep s evts).buf := by
  intro evts
  induction evts with
  | nil =>
    intro s hinv _
    refine ⟨hinv, ?_⟩
    intro i t h
    cases h
  | cons e rest ih =>
    intro s hinv hwf
    cases e with
    | frag i t =>
      simp only [wfEvents, Bool.and_eq_true, Bool.not_eq_true'] at hwf
      obtain ⟨hni, hwfr⟩ := hwf
      have hnmem : i ∉ s.doneChunks := by
        intro hm
        rw [List.elem_eq_true_of_mem hm] at hni
        cases hni
      obtain ⟨hp, hout, hbuf, hdone⟩ := hinv
      have hinv2 : RelayInv (relayStep s (RelayEvent.frag i t)) := by
        simp only [relayStep]
        by_cases hic : i = s.cur
        · rw [if_pos hic]
          refine ⟨?_, ?_, hbuf, hdone⟩
          · show (s.out ++ [(i, t)]).Pairwise chunkLE
            rw [List.pairwise_append]
            refine ⟨hp, List.pairwise_singleton _ _, ?_⟩
            intro a ha b hb
            have h1 := hout a ha
            simp only [List.mem_singleton] at hb
            subst hb
            show a.1 ≤ i
            omega
          · intro p hp2
            show p.1 ≤ s.cur
            rcases List.mem_append.mp hp2 with h1 | h1
            · exact hout p h1
            · simp only [List.mem_singleton] at h1
              subst h1
              omega
        · rw [if_neg hic]
          have hgt : s.cur < i := by
            rcases Nat.lt_or_ge s.cur i with h1 | h1
            · exact h1
            · exfalso
              have : i < s.cur := by omega
              exact hnmem (hdone i this)
          refine ⟨hp, hout, ?_, hdone⟩
          intro p hp2
          show s.cur < p.1
          rcases List.mem_append.mp hp2 with h1 | h1
          · exact hbuf p h1
          · simp only [List.mem_singleton] at h1
            subst h1
            exact hgt
      have hdeq : (relayStep s (RelayEvent.frag i t)).doneChunks = s.doneChunks := by
        simp only [relayStep]
        by_cases hic : i = s.cur
        · rw [if_pos hic]
        · rw [if_neg hic]
      obtain ⟨hinvf, hmem⟩ := ih (relayStep s (RelayEvent.frag i t)) hinv2
        (by rw [hdeq]; exact hwfr)
      refine ⟨hinvf, ?_⟩
      intro j u hju
      rcases List.mem_cons.mp hju with heq | hrest
      · have hji : j = i ∧ u = t := by
          cases heq
          exact ⟨rfl, rfl⟩
        obtain ⟨rfl, rfl⟩ := hji
        have hstep : (j, u) ∈ (relayStep s (RelayEvent.frag j u)).out
            ∨ (j, u) ∈ (relayStep s (RelayEvent.frag j u)).buf := by
          simp only [relayStep]
          by_cases hic : j = s.cur
          · rw [if_pos hic]
            exact Or.inl (List.mem_append_right _ (List.mem_singleton_self _))
          · rw [if_neg hic]
            exact Or.inr (List.mem_append_right _ (List.mem_singleton_self _))
        rcases hstep with h1 | h1
        · exact Or.inl (relayFold_out_mem rest _ _ h1)
        · exact relayFold_buf_mem rest _ _ h1
      · exact hmem j u hrest
    | chunkDone i =>
      simp only [wfEvents] at hwf
      obtain ⟨hp, hout, hbuf, hdone⟩ := hinv
      have hinvmid : RelayInv { s with doneChunks := i :: s.doneChunks } := by
        refine ⟨hp, hout, hbuf, ?_⟩
        intro j hj
        exact List.mem_cons_of_mem _ (hdone j hj)
      have hinv2 : RelayInv (relayStep s (RelayEvent.chunkDone i)) :=
        advanceQueue_inv _ _ hinvmid
      have hdeq : (relayStep s (RelayEvent.chunkDone i)).doneChunks
          = i :: s.doneChunks := by
        simp only [relayStep]
        rw [advanceQueue_done]
      obtain ⟨hinvf, hmem⟩ := ih (relayStep s (RelayEvent.chunkDone i)) hinv2
        (by rw [hdeq]; exact hwf)
      refine ⟨hinvf, ?_⟩
      intro j u hju
      rcases List.mem_cons.mp hju with heq | hrest
      · cases heq
      · exact hmem j u hrest

/-- C3: for every well-formed interleaving of upstream translation
responses, the fragments released to the client are ordered by
originating chunk — every fragment of chunk N is released before any
fragment of chunk N+1 — and each arrived fragment is either already
released or belongs to a chunk past the queue's current position. -/
theorem translation_chunk_order (evts : List RelayEvent) (i : Nat) (t : String)
    (hwf : wfEvents [] evts = true) :
    (relayRun evts).out.Pairwise chunkLE
    ∧ (RelayEvent.frag i t ∈ evts →
        (i, t) ∈ (relayRun evts).out ∨ (relayRun evts).cur < i) := by
  have hinit : RelayInv { cur := 0, buf := [], doneChunks := [], out := [] } := by
    refine ⟨List.Pairwise.nil, ?_, ?_, ?_⟩
    · intro p hp
      cases hp
    · intro p hp
      cases hp
    · intro j hj
      exact absurd hj (Nat.not_lt_zero j)
  obtain ⟨hinv, hmem⟩ := relayFold_master evts _ hinit hwf
  refine ⟨hinv.1, ?_⟩
  intro h
  rcases hmem i t h with h1 | h1
  · exact Or.inl h1
  · exact Or.inr (hinv.2.2.1 _ h1)

theorem translation_chunk_order_witness :
    (relayRun [RelayEvent.frag 1 "x", RelayEvent.frag 0 "a",
        RelayEvent.chunkDone 0, RelayEvent.chunkDone 1]).out.Pairwise chunkLE
    ∧ ((0, "a") ∈ (relayRun [RelayEvent.frag 1 "x", RelayEvent.frag 0 "a",
        RelayEvent.chunkDone 0, RelayEvent.chunkDone 1]).out
      ∨ (relayRun [RelayEvent.frag 1 "x", RelayEvent.frag 0 "a",
        RelayEvent.chunkDone 0, RelayEvent.chunkDone 1]).cur < 0) := by
  have h := translation_chunk_order [RelayEvent.frag 1 "x", RelayEvent.frag 0 "a",
    RelayEvent.chunkDone 0, RelayEvent.chunkDone 1] 0 "a" (by decide)
  exact ⟨h.1, h.2 (by decide)⟩

end AudioTranslation
